import Mathlib

/-!
# Eulerian circuit / Eulerian path decision procedures

Shallow embedding of `src/konigsberg_bridge_example.py`: the two public decision
functions `is_eulerian` and `has_eulerian_path`, over finite (multi)graphs given
by a vertex list and an edge list (parallel edges and self-loops allowed).

The Python source delegates connectivity to the external `networkx` library
(`nx.is_connected`, `nx.is_strongly_connected`, `nx.is_weakly_connected`); those
collaborators are modelled here from the spec (§4.2): connectivity means every
vertex is reachable from every other vertex (following edge direction for strong
connectivity, ignoring it for undirected/weak connectivity), and the zero-vertex
graph is vacuously connected (the spec's documented empty-graph policy).
-/

namespace Konigsberg

/-- A finite multigraph: a directedness flag, a vertex list and an edge list.
An edge `(u, v)` is an ordered pair when `directed = true` and stands for the
unordered pair `{u, v}` otherwise.  Parallel edges and self-loops are allowed. -/
structure Graph where
  directed : Bool
  vertices : List Nat
  edges : List (Nat × Nat)

/-- Vertex list has no duplicates and every edge endpoint is a listed vertex. -/
def WellFormed (G : Graph) : Prop :=
  G.vertices.Nodup ∧ ∀ e ∈ G.edges, e.1 ∈ G.vertices ∧ e.2 ∈ G.vertices

/-- Out-degree of `v`: number of edges whose source is `v` (`G.out_degree`). -/
def out_degree (G : Graph) (v : Nat) : Nat :=
  G.edges.countP (fun e => e.1 == v)

/-- In-degree of `v`: number of edges whose target is `v` (`G.in_degree`). -/
def in_degree (G : Graph) (v : Nat) : Nat :=
  G.edges.countP (fun e => e.2 == v)

/-- Undirected degree of `v`: number of edge endpoints at `v`; a self-loop
contributes 2 (`G.degree` on a networkx multigraph). -/
def degree (G : Graph) (v : Nat) : Nat :=
  out_degree G v + in_degree G v

/-- Directed adjacency: some edge goes from `u` to `v`. -/
def dirAdj (edges : List (Nat × Nat)) (u v : Nat) : Bool :=
  edges.any (fun e => e.1 == u && e.2 == v)

/-- Direction-erased adjacency: some edge joins `u` and `v` in either
orientation. -/
def symAdj (edges : List (Nat × Nat)) (u v : Nat) : Bool :=
  edges.any (fun e => (e.1 == u && e.2 == v) || (e.2 == u && e.1 == v))

/-- One round of breadth-first expansion: add every listed vertex not yet
reached that is adjacent to a reached vertex. -/
def expand (adj : Nat → Nat → Bool) (verts : List Nat) (reached : List Nat) :
    List Nat :=
  reached ++ verts.filter (fun v => !reached.contains v &&
    reached.any (fun u => adj u v))

/-- Vertices reachable from `start`: expand `|verts|` times, enough to saturate. -/
def reachSet (adj : Nat → Nat → Bool) (verts : List Nat) (start : Nat) :
    List Nat :=
  (expand adj verts)^[verts.length] [start]

/-- Boolean reachability test. -/
def reachb (adj : Nat → Nat → Bool) (verts : List Nat) (u w : Nat) : Bool :=
  (reachSet adj verts u).contains w

/-- Every listed vertex reaches every other listed vertex. -/
def allPairs (adj : Nat → Nat → Bool) (verts : List Nat) : Bool :=
  verts.all (fun u => verts.all (fun w => reachb adj verts u w))

/-- Modelled from the spec: `nx.is_connected` (undirected connectivity), absent
from `src/` because it lives in the external networkx library.  Per spec §4.2 a
graph is connected iff every vertex is reachable from every other vertex, and
the zero-vertex graph is vacuously connected. -/
def is_connected (G : Graph) : Bool :=
  allPairs (symAdj G.edges) G.vertices

/-- Modelled from the spec: `nx.is_strongly_connected`, absent from `src/`
because it lives in the external networkx library.  Every ordered pair of
vertices must be mutually reachable following edge direction (spec §4.2 /
glossary); the zero-vertex graph is vacuously strongly connected. -/
def is_strongly_connected (G : Graph) : Bool :=
  allPairs (dirAdj G.edges) G.vertices

/-- Modelled from the spec: `nx.is_weakly_connected`, absent from `src/`
because it lives in the external networkx library.  Undirected connectivity on
the direction-erased edge set (spec §4.2). -/
def is_weakly_connected (G : Graph) : Bool :=
  allPairs (symAdj G.edges) G.vertices

/-- `is_eulerian(G)` from the source: directed graphs need every vertex balanced
(in-degree = out-degree) and strong connectivity; undirected graphs need every
degree even and connectivity. -/
def is_eulerian (G : Graph) : Bool :=
  if G.directed then
    G.vertices.all (fun n => in_degree G n == out_degree G n) &&
      is_strongly_connected G
  else
    G.vertices.all (fun v => degree G v % 2 == 0) && is_connected G

/-- `sum(ins(v) - outs(v) == 1 for v in G)` from the source (Python ints, hence
integer subtraction). -/
def semibalanced_ins (G : Graph) : Nat :=
  G.vertices.countP (fun v =>
    (in_degree G v : Int) - (out_degree G v : Int) == 1)

/-- `sum(outs(v) - ins(v) == 1 for v in G)` from the source. -/
def semibalanced_outs (G : Graph) : Nat :=
  G.vertices.countP (fun v =>
    (out_degree G v : Int) - (in_degree G v : Int) == 1)

/-- `sum(G.in_degree(v) != G.out_degree(v) for v in G)` from the source. -/
def imbalanced_count (G : Graph) : Nat :=
  G.vertices.countP (fun v => !(in_degree G v == out_degree G v))

/-- `sum(d % 2 == 1 for v, d in G.degree())` from the source. -/
def odd_count (G : Graph) : Nat :=
  G.vertices.countP (fun v => degree G v % 2 == 1)

/-- `has_eulerian_path(G)` from the source: directed graphs need at most one
vertex with in−out = 1, at most one with out−in = 1, at most two imbalanced
vertices, and weak connectivity; undirected graphs need 0 or 2 odd-degree
vertices and connectivity. -/
def has_eulerian_path (G : Graph) : Bool :=
  if G.directed then
    decide (semibalanced_ins G ≤ 1) && decide (semibalanced_outs G ≤ 1) &&
      decide (imbalanced_count G ≤ 2) && is_weakly_connected G
  else
    (odd_count G == 0 || odd_count G == 2) && is_connected G

/-- Reversal of a directed graph: every edge `(u, v)` becomes `(v, u)`. -/
def reverse (G : Graph) : Graph :=
  ⟨G.directed, G.vertices, G.edges.map (fun e => (e.2, e.1))⟩

/-- Specification-level reachability: reflexive-transitive closure of the
adjacency relation ("every vertex reachable from every other", spec glossary). -/
inductive ReachSpec (adj : Nat → Nat → Bool) : Nat → Nat → Prop where
  | refl (u : Nat) : ReachSpec adj u u
  | tail {u v w : Nat} : ReachSpec adj u v → adj v w = true → ReachSpec adj u w

/-- Reachability through listed vertices: every step lands on a listed vertex.
This is what the bounded search `reachSet` computes. -/
inductive Reaches (adj : Nat → Nat → Bool) (verts : List Nat) : Nat → Nat → Prop where
  | refl (u : Nat) : Reaches adj verts u u
  | tail {u v w : Nat} : Reaches adj verts u v → adj v w = true → w ∈ verts →
      Reaches adj verts u w

theorem contains_iff_mem {l : List Nat} {a : Nat} : l.contains a = true ↔ a ∈ l :=
  List.elem_iff

theorem subset_expand (adj : Nat → Nat → Bool) (verts reached : List Nat) :
    reached ⊆ expand adj verts reached :=
  List.subset_append_left _ _

theorem subset_iterate_expand (adj : Nat → Nat → Bool) (verts : List Nat)
    (n : Nat) (r : List Nat) : r ⊆ (expand adj verts)^[n] r := by
  induction n with
  | zero => simp
  | succ n ih =>
      rw [Function.iterate_succ_apply']
      exact ih.trans (subset_expand adj verts _)

theorem reaches_of_mem_iterate {adj : Nat → Nat → Bool} {verts : List Nat}
    {u : Nat} (n : Nat) :
    ∀ x ∈ (expand adj verts)^[n] [u], Reaches adj verts u x := by
  induction n with
  | zero =>
      intro x hx
      simp at hx
      subst hx
      exact Reaches.refl _
  | succ n ih =>
      intro x hx
      rw [Function.iterate_succ_apply'] at hx
      rcases List.mem_append.1 hx with h | h
      · exact ih x h
      · rcases List.mem_filter.1 h with ⟨hxv, hcond⟩
        rw [Bool.and_eq_true] at hcond
        rcases hcond with ⟨-, hany⟩
        rcases List.any_eq_true.1 hany with ⟨y, hy, hadj⟩
        exact Reaches.tail (ih y hy) hadj hxv

theorem nodup_iterate_expand {adj : Nat → Nat → Bool} {verts : List Nat}
    (hv : verts.Nodup) (u : Nat) (n : Nat) :
    ((expand adj verts)^[n] [u]).Nodup := by
  induction n with
  | zero => simp
  | succ n ih =>
      rw [Function.iterate_succ_apply']
      refine List.Nodup.append ih (List.Nodup.filter _ hv) ?_
      intro x hx hx'
      rcases List.mem_filter.1 hx' with ⟨-, hcond⟩
      rw [Bool.and_eq_true] at hcond
      rcases hcond with ⟨hnc, -⟩
      rw [Bool.not_eq_true'] at hnc
      rw [contains_iff_mem.2 hx] at hnc
      exact Bool.noConfusion hnc

theorem iterate_expand_subset_cons {adj : Nat → Nat → Bool} {verts : List Nat}
    (u : Nat) (n : Nat) :
    (expand adj verts)^[n] [u] ⊆ u :: verts := by
  induction n with
  | zero => simp
  | succ n ih =>
      rw [Function.iterate_succ_apply']
      intro x hx
      rcases List.mem_append.1 hx with h | h
      · exact ih h
      · exact List.mem_cons_of_mem u (List.mem_of_mem_filter h)

theorem expand_eq_self_of_filter_nil {adj : Nat → Nat → Bool}
    {verts r : List Nat}
    (h : verts.filter (fun v => !r.contains v && r.any (fun u => adj u v)) = []) :
    expand adj verts r = r := by
  unfold expand
  rw [h, List.append_nil]

theorem expand_eq_or_length_lt (adj : Nat → Nat → Bool) (verts r : List Nat) :
    expand adj verts r = r ∨ r.length < (expand adj verts r).length := by
  unfold expand
  cases hf : verts.filter (fun v => !r.contains v && r.any (fun u => adj u v)) with
  | nil => left; simp [hf]
  | cons a t => right; simp [hf]

theorem length_le_iterate_expand {adj : Nat → Nat → Bool} {verts : List Nat}
    {u : Nat} (n : Nat)
    (h : ∀ k < n, expand adj verts ((expand adj verts)^[k] [u]) ≠
      (expand adj verts)^[k] [u]) :
    n + 1 ≤ ((expand adj verts)^[n] [u]).length := by
  induction n with
  | zero => simp
  | succ n ih =>
      have h1 : n + 1 ≤ ((expand adj verts)^[n] [u]).length :=
        ih (fun k hk => h k (Nat.lt_succ_of_lt hk))
      have h2 := expand_eq_or_length_lt adj verts ((expand adj verts)^[n] [u])
      rcases h2 with h2 | h2
      · exact absurd h2 (h n (Nat.lt_succ_self n))
      · rw [Function.iterate_succ_apply']
        omega

theorem expand_reachSet_fixed {adj : Nat → Nat → Bool} {verts : List Nat}
    (hv : verts.Nodup) (u : Nat) :
    expand adj verts (reachSet adj verts u) = reachSet adj verts u := by
  classical
  unfold reachSet
  by_cases h : ∀ k < verts.length,
      expand adj verts ((expand adj verts)^[k] [u]) ≠ (expand adj verts)^[k] [u]
  · -- the reached set grew at every step, so it already contains every vertex
    have hlen : verts.length + 1 ≤ ((expand adj verts)^[verts.length] [u]).length :=
      length_le_iterate_expand verts.length h
    have hnd : ((expand adj verts)^[verts.length] [u]).Nodup :=
      nodup_iterate_expand hv u verts.length
    have hsub : (expand adj verts)^[verts.length] [u] ⊆ u :: verts :=
      iterate_expand_subset_cons u verts.length
    have hsp : List.Subperm ((expand adj verts)^[verts.length] [u]) (u :: verts) :=
      List.subperm_of_subset hnd hsub
    have hperm : List.Perm ((expand adj verts)^[verts.length] [u]) (u :: verts) :=
      hsp.perm_of_length_le (by simpa using hlen)
    have hall : ∀ v ∈ verts, v ∈ (expand adj verts)^[verts.length] [u] := by
      intro v hvv
      exact hperm.mem_iff.2 (List.mem_cons_of_mem u hvv)
    have hfil : verts.filter (fun v =>
        !((expand adj verts)^[verts.length] [u]).contains v &&
          ((expand adj verts)^[verts.length] [u]).any (fun x => adj x v)) = [] := by
      rw [List.filter_eq_nil_iff]
      intro v hvv
      simp only [Bool.and_eq_true, Bool.not_eq_true']
      intro hc
      rw [contains_iff_mem.2 (hall v hvv)] at hc
      exact Bool.noConfusion hc.1
    exact expand_eq_self_of_filter_nil hfil
  · push_neg at h
    rcases h with ⟨k, hk, hfix⟩
    have hrest : (expand adj verts)^[verts.length] [u] = (expand adj verts)^[k] [u] := by
      have : verts.length = (verts.length - k) + k := by omega
      rw [this, Function.iterate_add_apply]
      exact Function.iterate_fixed hfix _
    rw [hrest, hfix]

theorem mem_reachSet_of_adj {adj : Nat → Nat → Bool} {verts : List Nat}
    (hv : verts.Nodup) {u x w : Nat} (hx : x ∈ reachSet adj verts u)
    (hadj : adj x w = true) (hw : w ∈ verts) : w ∈ reachSet adj verts u := by
  classical
  have hfix : expand adj verts (reachSet adj verts u) = reachSet adj verts u :=
    expand_reachSet_fixed hv u
  by_contra hnot
  have hany : (reachSet adj verts u).any (fun y => adj y w) = true :=
    List.any_eq_true.2 ⟨x, hx, hadj⟩
  have hlen := congrArg List.length hfix
  rw [expand, List.length_append] at hlen
  have hfl : (verts.filter (fun v => !(reachSet adj verts u).contains v &&
      (reachSet adj verts u).any (fun y => adj y v))).length = 0 := by omega
  rw [List.length_eq_zero, List.filter_eq_nil_iff] at hfl
  refine hfl w hw ?_
  simp only [Bool.and_eq_true, Bool.not_eq_true']
  refine ⟨?_, hany⟩
  cases hel : (reachSet adj verts u).contains w with
  | false => rfl
  | true => exact absurd (contains_iff_mem.1 hel) hnot

theorem mem_reachSet_of_reaches {adj : Nat → Nat → Bool} {verts : List Nat}
    (hv : verts.Nodup) {u w : Nat} (h : Reaches adj verts u w) :
    w ∈ reachSet adj verts u := by
  induction h with
  | refl => exact subset_iterate_expand adj verts verts.length [u] (by simp)
  | tail _ hadj hw ih => exact mem_reachSet_of_adj hv ih hadj hw

theorem reachb_iff_reaches {adj : Nat → Nat → Bool} {verts : List Nat}
    (hv : verts.Nodup) (u w : Nat) :
    reachb adj verts u w = true ↔ Reaches adj verts u w := by
  unfold reachb
  rw [contains_iff_mem]
  exact ⟨fun h => reaches_of_mem_iterate verts.length w h,
    fun h => mem_reachSet_of_reaches hv h⟩

theorem expand_mono {adj₁ adj₂ : Nat → Nat → Bool} {verts r₁ r₂ : List Nat}
    (hadj : ∀ a b, adj₁ a b = true → adj₂ a b = true) (hr : r₁ ⊆ r₂) :
    expand adj₁ verts r₁ ⊆ expand adj₂ verts r₂ := by
  intro x hx
  rcases List.mem_append.1 hx with h | h
  · exact List.mem_append_left _ (hr h)
  · rcases List.mem_filter.1 h with ⟨hxv, hcond⟩
    rw [Bool.and_eq_true] at hcond
    rcases hcond with ⟨-, hany⟩
    rcases List.any_eq_true.1 hany with ⟨y, hy, hadjy⟩
    by_cases hmem : x ∈ r₂
    · exact List.mem_append_left _ hmem
    · refine List.mem_append_right _ (List.mem_filter.2 ⟨hxv, ?_⟩)
      rw [Bool.and_eq_true]
      refine ⟨?_, List.any_eq_true.2 ⟨y, hr hy, hadj _ _ hadjy⟩⟩
      cases hel : r₂.contains x with
      | false => rfl
      | true => exact absurd (contains_iff_mem.1 hel) hmem

theorem reachSet_mono {adj₁ adj₂ : Nat → Nat → Bool} {verts : List Nat}
    (hadj : ∀ a b, adj₁ a b = true → adj₂ a b = true) (u : Nat) :
    reachSet adj₁ verts u ⊆ reachSet adj₂ verts u := by
  unfold reachSet
  generalize verts.length = n
  induction n with
  | zero => simp
  | succ n ih =>
      rw [Function.iterate_succ_apply', Function.iterate_succ_apply']
      exact expand_mono hadj ih

theorem reachb_mono {adj₁ adj₂ : Nat → Nat → Bool} {verts : List Nat}
    (hadj : ∀ a b, adj₁ a b = true → adj₂ a b = true) {u w : Nat}
    (h : reachb adj₁ verts u w = true) : reachb adj₂ verts u w = true := by
  unfold reachb at h ⊢
  rw [contains_iff_mem] at h ⊢
  exact reachSet_mono hadj u h

theorem reachb_congr {adj₁ adj₂ : Nat → Nat → Bool} {verts : List Nat}
    (hadj : ∀ a b, adj₁ a b = adj₂ a b) (u w : Nat) :
    reachb adj₁ verts u w = reachb adj₂ verts u w := by
  cases h₁ : reachb adj₁ verts u w with
  | true => exact (reachb_mono (fun a b hab => (hadj a b) ▸ hab) h₁).symm
  | false =>
      cases h₂ : reachb adj₂ verts u w with
      | false => rfl
      | true =>
          have h₁' : reachb adj₁ verts u w = true :=
            reachb_mono (fun a b hab => by rw [hadj a b]; exact hab) h₂
          rw [h₁'] at h₁
          exact Bool.noConfusion h₁

/-- When every adjacency target is a listed vertex, bounded reachability agrees
with specification-level reachability. -/
theorem reaches_iff_reachSpec {adj : Nat → Nat → Bool} {verts : List Nat}
    (hclosed : ∀ a b, adj a b = true → b ∈ verts) (u w : Nat) :
    Reaches adj verts u w ↔ ReachSpec adj u w := by
  constructor
  · intro h
    induction h with
    | refl => exact ReachSpec.refl _
    | tail _ hadj _ ih => exact ReachSpec.tail ih hadj
  · intro h
    induction h with
    | refl => exact Reaches.refl _
    | tail _ hadj ih => exact Reaches.tail ih hadj (hclosed _ _ hadj)

theorem reaches_head {adj : Nat → Nat → Bool} {verts : List Nat}
    {a b c : Nat} (hadj : adj a b = true) (hb : b ∈ verts)
    (h : Reaches adj verts b c) : Reaches adj verts a c := by
  induction h with
  | refl => exact Reaches.tail (Reaches.refl a) hadj hb
  | tail _ hstep hmem ih => exact Reaches.tail ih hstep hmem

theorem reaches_mem_right {adj : Nat → Nat → Bool} {verts : List Nat}
    {u w : Nat} (h : Reaches adj verts u w) : w = u ∨ w ∈ verts := by
  cases h with
  | refl => exact Or.inl rfl
  | tail _ _ hm => exact Or.inr hm

theorem reaches_flip {adj adj' : Nat → Nat → Bool} {verts : List Nat}
    (hadj : ∀ a b, adj' a b = adj b a) {u w : Nat} (hu : u ∈ verts)
    (h : Reaches adj' verts u w) : Reaches adj verts w u := by
  induction h with
  | refl => exact Reaches.refl _
  | tail hprev hstep hmem ih =>
      rename_i x y
      have hyx : adj y x = true := (hadj x y) ▸ hstep
      rcases reaches_mem_right hprev with rfl | hx
      · exact reaches_head hyx hu ih
      · exact reaches_head hyx hx ih

theorem dirAdj_closed {G : Graph}
    (hcl : ∀ e ∈ G.edges, e.1 ∈ G.vertices ∧ e.2 ∈ G.vertices) :
    ∀ a b, dirAdj G.edges a b = true → b ∈ G.vertices := by
  intro a b h
  rcases List.any_eq_true.1 h with ⟨e, he, hc⟩
  rw [Bool.and_eq_true, beq_iff_eq, beq_iff_eq] at hc
  exact hc.2 ▸ (hcl e he).2

theorem symAdj_closed {G : Graph}
    (hcl : ∀ e ∈ G.edges, e.1 ∈ G.vertices ∧ e.2 ∈ G.vertices) :
    ∀ a b, symAdj G.edges a b = true → b ∈ G.vertices := by
  intro a b h
  rcases List.any_eq_true.1 h with ⟨e, he, hc⟩
  rw [Bool.or_eq_true, Bool.and_eq_true, Bool.and_eq_true,
    beq_iff_eq, beq_iff_eq, beq_iff_eq, beq_iff_eq] at hc
  rcases hc with ⟨-, h2⟩ | ⟨-, h2⟩
  · exact h2 ▸ (hcl e he).2
  · exact h2 ▸ (hcl e he).1

theorem dirAdj_le_symAdj (edges : List (Nat × Nat)) :
    ∀ a b, dirAdj edges a b = true → symAdj edges a b = true := by
  intro a b h
  rcases List.any_eq_true.1 h with ⟨e, he, hc⟩
  refine List.any_eq_true.2 ⟨e, he, ?_⟩
  rw [Bool.or_eq_true]
  exact Or.inl hc

theorem allPairs_iff_reachSpec {adj : Nat → Nat → Bool} {verts : List Nat}
    (hv : verts.Nodup) (hclosed : ∀ a b, adj a b = true → b ∈ verts) :
    allPairs adj verts = true ↔ ∀ u ∈ verts, ∀ w ∈ verts, ReachSpec adj u w := by
  unfold allPairs
  rw [List.all_eq_true]
  refine forall_congr' fun u => imp_congr_right fun hu => ?_
  rw [List.all_eq_true]
  refine forall_congr' fun w => imp_congr_right fun hw => ?_
  rw [reachb_iff_reaches hv]
  exact reaches_iff_reachSpec hclosed u w

theorem allPairs_mono {adj₁ adj₂ : Nat → Nat → Bool} {verts : List Nat}
    (hadj : ∀ a b, adj₁ a b = true → adj₂ a b = true)
    (h : allPairs adj₁ verts = true) : allPairs adj₂ verts = true := by
  rw [allPairs, List.all_eq_true] at h ⊢
  intro u hu
  have hu' := h u hu
  rw [List.all_eq_true] at hu' ⊢
  intro w hw
  exact reachb_mono hadj (hu' w hw)

theorem reachSet_isolated {adj : Nat → Nat → Bool} {verts : List Nat}
    {c : Nat} (h : ∀ v, adj c v = false) : reachSet adj verts c = [c] := by
  have hfix : expand adj verts [c] = [c] := by
    refine expand_eq_self_of_filter_nil ?_
    rw [List.filter_eq_nil_iff]
    intro v hv hcond
    rw [Bool.and_eq_true] at hcond
    rcases hcond with ⟨-, hany⟩
    rcases List.any_eq_true.1 hany with ⟨x, hx, hadj⟩
    rcases List.mem_singleton.1 hx with rfl
    rw [h v] at hadj
    exact Bool.noConfusion hadj
  unfold reachSet
  exact Function.iterate_fixed hfix _

theorem allPairs_false_of_isolated {adj : Nat → Nat → Bool} {verts : List Nat}
    {c a : Nat} (hiso : ∀ v, adj c v = false) (hc : c ∈ verts) (ha : a ∈ verts)
    (hne : a ≠ c) : allPairs adj verts = false := by
  cases hall : allPairs adj verts with
  | false => rfl
  | true =>
      exfalso
      rw [allPairs, List.all_eq_true] at hall
      have h1 := hall c hc
      rw [List.all_eq_true] at h1
      have h2 := h1 a ha
      rw [reachb, contains_iff_mem, reachSet_isolated hiso] at h2
      exact hne (List.mem_singleton.1 h2)

/-- C4: neither `is_eulerian` nor `has_eulerian_path` raises an error: every
input graph, including the zero-vertex zero-edge graph, yields a definite
boolean verdict from each entry point. -/
theorem decision_total (G : Graph) :
    (is_eulerian G = true ∨ is_eulerian G = false) ∧
      (has_eulerian_path G = true ∨ has_eulerian_path G = false) := by
  constructor
  · cases is_eulerian G
    · exact Or.inr rfl
    · exact Or.inl rfl
  · cases has_eulerian_path G
    · exact Or.inr rfl
    · exact Or.inl rfl

/-- C5: a graph with at least one edge and an isolated (degree-0) vertex is
rejected by both entry points, because the connectivity check requires all
vertices (even isolated ones) to be mutually reachable. -/
theorem isolated_vertex_rejected (G : Graph) (c : Nat)
    (hcl : ∀ e ∈ G.edges, e.1 ∈ G.vertices ∧ e.2 ∈ G.vertices)
    (hc : c ∈ G.vertices) (hdeg : degree G c = 0) (hne : G.edges ≠ []) :
    is_eulerian G = false ∧ has_eulerian_path G = false := by
  have hout : out_degree G c = 0 := by
    have := hdeg
    unfold degree at this
    omega
  have hin : in_degree G c = 0 := by
    have := hdeg
    unfold degree at this
    omega
  rw [out_degree, List.countP_eq_zero] at hout
  rw [in_degree, List.countP_eq_zero] at hin
  have hfst : ∀ e ∈ G.edges, e.1 ≠ c := by
    intro e he heq
    exact hout e he (by rw [beq_iff_eq]; exact heq)
  have hsnd : ∀ e ∈ G.edges, e.2 ≠ c := by
    intro e he heq
    exact hin e he (by rw [beq_iff_eq]; exact heq)
  have hdir : ∀ v, dirAdj G.edges c v = false := by
    intro v
    cases hany : dirAdj G.edges c v with
    | false => rfl
    | true =>
        rcases List.any_eq_true.1 hany with ⟨e, he, hcond⟩
        rw [Bool.and_eq_true, beq_iff_eq, beq_iff_eq] at hcond
        exact absurd hcond.1 (hfst e he)
  have hsym : ∀ v, symAdj G.edges c v = false := by
    intro v
    cases hany : symAdj G.edges c v with
    | false => rfl
    | true =>
        rcases List.any_eq_true.1 hany with ⟨e, he, hcond⟩
        rw [Bool.or_eq_true, Bool.and_eq_true, Bool.and_eq_true,
          beq_iff_eq, beq_iff_eq, beq_iff_eq, beq_iff_eq] at hcond
        rcases hcond with ⟨h1, -⟩ | ⟨h1, -⟩
        · exact absurd h1 (hfst e he)
        · exact absurd h1 (hsnd e he)
  rcases List.exists_mem_of_ne_nil G.edges hne with ⟨e₀, he₀⟩
  have ha : e₀.1 ∈ G.vertices := (hcl e₀ he₀).1
  have hane : e₀.1 ≠ c := hfst e₀ he₀
  have hconn_sym : allPairs (symAdj G.edges) G.vertices = false :=
    allPairs_false_of_isolated hsym hc ha hane
  have hconn_dir : allPairs (dirAdj G.edges) G.vertices = false :=
    allPairs_false_of_isolated hdir hc ha hane
  constructor
  · cases hd : G.directed with
    | true => simp [is_eulerian, hd, is_strongly_connected, hconn_dir]
    | false => simp [is_eulerian, hd, is_connected, hconn_sym]
  · cases hd : G.directed with
    | true => simp [has_eulerian_path, hd, is_weakly_connected, hconn_sym]
    | false => simp [has_eulerian_path, hd, is_connected, hconn_sym]

/-- C5 witness: the undirected graph with vertices `{0,1,2}` and the single
edge `0–1` (vertex `2` isolated) is rejected by both entry points. -/
theorem isolated_vertex_rejected_witness :
    is_eulerian ⟨false, [0, 1, 2], [(0, 1)]⟩ = false ∧
      has_eulerian_path ⟨false, [0, 1, 2], [(0, 1)]⟩ = false :=
  isolated_vertex_rejected ⟨false, [0, 1, 2], [(0, 1)]⟩ 2
    (by decide) (by decide) (by decide) (by decide)

/-- C6: whenever `is_eulerian` accepts a graph, `has_eulerian_path` accepts it
too (a circuit is also a valid path). -/
theorem eulerian_implies_path (G : Graph) (h : is_eulerian G = true) :
    has_eulerian_path G = true := by
  cases hd : G.directed with
  | true =>
      rw [is_eulerian] at h
      simp only [hd, if_true] at h
      rw [Bool.and_eq_true] at h
      rcases h with ⟨hbal, hstrong⟩
      rw [List.all_eq_true] at hbal
      have hbal' : ∀ v ∈ G.vertices, in_degree G v = out_degree G v := by
        intro v hv
        have := hbal v hv
        rwa [beq_iff_eq] at this
      have h1 : semibalanced_ins G = 0 := by
        rw [semibalanced_ins, List.countP_eq_zero]
        intro v hv
        rw [hbal' v hv]
        simp
      have h2 : semibalanced_outs G = 0 := by
        rw [semibalanced_outs, List.countP_eq_zero]
        intro v hv
        rw [hbal' v hv]
        simp
      have h3 : imbalanced_count G = 0 := by
        rw [imbalanced_count, List.countP_eq_zero]
        intro v hv
        rw [hbal' v hv]
        simp
      have hweak : is_weakly_connected G = true := by
        rw [is_weakly_connected]
        exact allPairs_mono (dirAdj_le_symAdj G.edges) hstrong
      rw [has_eulerian_path]
      simp [hd, h1, h2, h3, hweak]
  | false =>
      rw [is_eulerian] at h
      simp only [hd, Bool.false_eq_true, if_false] at h
      rw [Bool.and_eq_true] at h
      rcases h with ⟨heven, hconn⟩
      rw [List.all_eq_true] at heven
      have h0 : odd_count G = 0 := by
        rw [odd_count, List.countP_eq_zero]
        intro v hv
        have := heven v hv
        rw [beq_iff_eq] at this
        simp [this]
      rw [has_eulerian_path]
      simp [hd, h0, hconn]

/-- C6 witness: the directed two-cycle is Eulerian, hence has an Eulerian
path. -/
theorem eulerian_implies_path_witness :
    has_eulerian_path ⟨true, [0, 1], [(0, 1), (1, 0)]⟩ = true :=
  eulerian_implies_path ⟨true, [0, 1], [(0, 1), (1, 0)]⟩ (by decide)

theorem allPairs_no_edges {verts : List Nat} {adj : Nat → Nat → Bool}
    (h : ∀ u v, adj u v = false) :
    allPairs adj verts = true ↔ ∀ u ∈ verts, ∀ w ∈ verts, w = u := by
  unfold allPairs
  rw [List.all_eq_true]
  refine forall_congr' fun u => imp_congr_right fun hu => ?_
  rw [List.all_eq_true]
  refine forall_congr' fun w => imp_congr_right fun hw => ?_
  rw [reachb, reachSet_isolated (h u), contains_iff_mem]
  exact List.mem_singleton

/-- C9: a graph with no edges and at least one vertex is accepted by
`is_eulerian` exactly when it has a single vertex: all degrees are trivially
zero, and the (strict, all-vertices) connectivity check passes only for one
vertex. -/
theorem zero_edge_is_eulerian_iff (G : Graph) (he : G.edges = [])
    (hv : G.vertices.Nodup) (hne : G.vertices ≠ []) :
    (is_eulerian G = true ↔ G.vertices.length = 1) := by
  have hadjd : ∀ u v, dirAdj G.edges u v = false := by
    intro u v
    rw [he]
    rfl
  have hadjs : ∀ u v, symAdj G.edges u v = false := by
    intro u v
    rw [he]
    rfl
  have hpairs : (∀ u ∈ G.vertices, ∀ w ∈ G.vertices, w = u) ↔
      G.vertices.length = 1 := by
    constructor
    · intro hp
      cases hvs : G.vertices with
      | nil => exact absurd hvs hne
      | cons a t =>
          cases hts : t with
          | nil => rfl
          | cons b t2 =>
              exfalso
              rw [hvs, hts] at hp hv
              have hba : b = a := hp a (List.mem_cons_self _ _) b
                (List.mem_cons_of_mem _ (List.mem_cons_self _ _))
              rw [List.nodup_cons] at hv
              exact hv.1 (hba ▸ List.mem_cons_self _ _)
    · intro hlen u hu w hw
      rcases List.length_eq_one.1 hlen with ⟨a, ha⟩
      rw [ha] at hu hw
      rw [List.mem_singleton.1 hu, List.mem_singleton.1 hw]
  cases hd : G.directed with
  | true =>
      have hbal : G.vertices.all (fun n => in_degree G n == out_degree G n) = true := by
        rw [List.all_eq_true]
        intro v hv'
        simp [in_degree, out_degree, he]
      rw [is_eulerian]
      simp only [hd, if_true, Bool.and_eq_true, hbal, true_and]
      rw [is_strongly_connected, allPairs_no_edges hadjd]
      exact hpairs
  | false =>
      have hpar : G.vertices.all (fun v => degree G v % 2 == 0) = true := by
        rw [List.all_eq_true]
        intro v hv'
        simp [degree, in_degree, out_degree, he]
      rw [is_eulerian]
      simp only [hd, Bool.false_eq_true, if_false, hpar, Bool.true_and]
      rw [is_connected, allPairs_no_edges hadjs]
      exact hpairs

/-- C9 witness: the one-vertex zero-edge graph is Eulerian; instantiating the
equivalence at vertex list `[7]`. -/
theorem zero_edge_is_eulerian_iff_witness :
    is_eulerian ⟨false, [7], []⟩ = true ↔
      (Graph.mk false [7] []).vertices.length = 1 :=
  zero_edge_is_eulerian_iff ⟨false, [7], []⟩ rfl (by decide) (by decide)

/-- C10: a one-vertex, zero-edge graph (directed or undirected) is accepted by
`has_eulerian_path`: the degree conditions hold vacuously and the single vertex
is trivially connected. -/
theorem single_vertex_has_path (d : Bool) (v : Nat) :
    has_eulerian_path ⟨d, [v], []⟩ = true := by
  have hconn : allPairs (symAdj ([] : List (Nat × Nat))) [v] = true := by
    rw [allPairs, List.all_eq_true]
    intro u hu
    rw [List.all_eq_true]
    intro w hw
    rcases List.mem_singleton.1 hu with rfl
    rcases List.mem_singleton.1 hw with rfl
    rw [reachb, reachSet_isolated (fun x => rfl), contains_iff_mem]
    exact List.mem_singleton_self _
  cases d with
  | true =>
      have h1 : semibalanced_ins ⟨true, [v], []⟩ = 0 := by
        rw [semibalanced_ins, List.countP_eq_zero]
        intro x hx
        simp [in_degree, out_degree]
      have h2 : semibalanced_outs ⟨true, [v], []⟩ = 0 := by
        rw [semibalanced_outs, List.countP_eq_zero]
        intro x hx
        simp [in_degree, out_degree]
      have h3 : imbalanced_count ⟨true, [v], []⟩ = 0 := by
        rw [imbalanced_count, List.countP_eq_zero]
        intro x hx
        simp [in_degree, out_degree]
      rw [has_eulerian_path]
      simp only [h1, h2, h3]
      simp [is_weakly_connected, hconn]
  | false =>
      have h0 : odd_count ⟨false, [v], []⟩ = 0 := by
        rw [odd_count, List.countP_eq_zero]
        intro x hx
        simp [degree, in_degree, out_degree]
      rw [has_eulerian_path]
      simp [h0, is_connected, hconn]

/-- C1: `is_eulerian` accepts exactly the graphs satisfying the spec's circuit
criterion: directed graphs in which every vertex is balanced and every ordered
pair of vertices is mutually reachable following edge direction, and undirected
graphs in which every vertex has even degree and every pair of vertices is
mutually reachable ignoring direction. -/
theorem is_eulerian_iff_spec (G : Graph) (h : WellFormed G) :
    is_eulerian G = true ↔
      ((G.directed = true ∧
          (∀ v ∈ G.vertices, in_degree G v = out_degree G v) ∧
          (∀ u ∈ G.vertices, ∀ w ∈ G.vertices, ReachSpec (dirAdj G.edges) u w)) ∨
        (G.directed = false ∧
          (∀ v ∈ G.vertices, degree G v % 2 = 0) ∧
          (∀ u ∈ G.vertices, ∀ w ∈ G.vertices, ReachSpec (symAdj G.edges) u w))) := by
  obtain ⟨hv, hcl⟩ := h
  cases hd : G.directed with
  | true =>
      rw [is_eulerian]
      simp only [hd, if_true, Bool.and_eq_true]
      rw [is_strongly_connected, allPairs_iff_reachSpec hv (dirAdj_closed hcl)]
      have hdeg : (G.vertices.all fun n => in_degree G n == out_degree G n) = true ↔
          ∀ v ∈ G.vertices, in_degree G v = out_degree G v := by
        rw [List.all_eq_true]
        exact forall_congr' fun v => imp_congr_right fun hv' => beq_iff_eq
      rw [hdeg]
      constructor
      · rintro ⟨h1, h2⟩
        exact Or.inl ⟨trivial, h1, h2⟩
      · rintro (⟨-, h1, h2⟩ | ⟨hfd, -⟩)
        · exact ⟨h1, h2⟩
        · exact Bool.noConfusion hfd
  | false =>
      rw [is_eulerian]
      simp only [hd, Bool.false_eq_true, if_false, Bool.and_eq_true]
      rw [is_connected, allPairs_iff_reachSpec hv (symAdj_closed hcl)]
      have hdeg : (G.vertices.all fun v => degree G v % 2 == 0) = true ↔
          ∀ v ∈ G.vertices, degree G v % 2 = 0 := by
        rw [List.all_eq_true]
        exact forall_congr' fun v => imp_congr_right fun hv' => beq_iff_eq
      rw [hdeg]
      constructor
      · rintro ⟨h1, h2⟩
        exact Or.inr ⟨trivial, h1, h2⟩
      · rintro (⟨hfd, -⟩ | ⟨-, h1, h2⟩)
        · exact hfd.elim
        · exact ⟨h1, h2⟩

/-- C1 witness: the equivalence instantiated at the directed one-vertex graph
with a single self-loop. -/
theorem is_eulerian_iff_spec_witness :
    is_eulerian ⟨true, [0], [(0, 0)]⟩ = true ↔
      ((true = true ∧
          (∀ v ∈ [0], in_degree ⟨true, [0], [(0, 0)]⟩ v =
            out_degree ⟨true, [0], [(0, 0)]⟩ v) ∧
          (∀ u ∈ [0], ∀ w ∈ [0], ReachSpec (dirAdj [(0, 0)]) u w)) ∨
        (true = false ∧
          (∀ v ∈ [0], degree ⟨true, [0], [(0, 0)]⟩ v % 2 = 0) ∧
          (∀ u ∈ [0], ∀ w ∈ [0], ReachSpec (symAdj [(0, 0)]) u w))) :=
  is_eulerian_iff_spec ⟨true, [0], [(0, 0)]⟩ ⟨by decide, by decide⟩

/-- C2: `has_eulerian_path` accepts exactly the graphs satisfying the spec's
path criterion: directed graphs with at most one vertex of in−out = 1, at most
one of out−in = 1, at most two imbalanced vertices and weak connectivity;
undirected graphs with 0 or 2 odd-degree vertices and connectivity. -/
theorem has_eulerian_path_iff_spec (G : Graph) (h : WellFormed G) :
    has_eulerian_path G = true ↔
      ((G.directed = true ∧ semibalanced_ins G ≤ 1 ∧ semibalanced_outs G ≤ 1 ∧
          imbalanced_count G ≤ 2 ∧
          (∀ u ∈ G.vertices, ∀ w ∈ G.vertices, ReachSpec (symAdj G.edges) u w)) ∨
        (G.directed = false ∧ (odd_count G = 0 ∨ odd_count G = 2) ∧
          (∀ u ∈ G.vertices, ∀ w ∈ G.vertices, ReachSpec (symAdj G.edges) u w))) := by
  obtain ⟨hv, hcl⟩ := h
  cases hd : G.directed with
  | true =>
      rw [has_eulerian_path]
      simp only [hd, if_true, Bool.and_eq_true, decide_eq_true_eq]
      rw [is_weakly_connected, allPairs_iff_reachSpec hv (symAdj_closed hcl)]
      constructor
      · rintro ⟨⟨⟨h1, h2⟩, h3⟩, h4⟩
        exact Or.inl ⟨trivial, h1, h2, h3, h4⟩
      · rintro (⟨-, h1, h2, h3, h4⟩ | ⟨hfd, -⟩)
        · exact ⟨⟨⟨h1, h2⟩, h3⟩, h4⟩
        · exact Bool.noConfusion hfd
  | false =>
      rw [has_eulerian_path]
      simp only [hd, Bool.false_eq_true, if_false, Bool.and_eq_true,
        Bool.or_eq_true, beq_iff_eq]
      rw [is_connected, allPairs_iff_reachSpec hv (symAdj_closed hcl)]
      constructor
      · rintro ⟨h1, h2⟩
        exact Or.inr ⟨trivial, h1, h2⟩
      · rintro (⟨hfd, -⟩ | ⟨-, h1, h2⟩)
        · exact hfd.elim
        · exact ⟨h1, h2⟩

/-- C2 witness: the equivalence instantiated at the directed two-vertex graph
with the single edge 0→1. -/
theorem has_eulerian_path_iff_spec_witness :
    has_eulerian_path ⟨true, [0, 1], [(0, 1)]⟩ = true ↔
      ((true = true ∧ semibalanced_ins ⟨true, [0, 1], [(0, 1)]⟩ ≤ 1 ∧
          semibalanced_outs ⟨true, [0, 1], [(0, 1)]⟩ ≤ 1 ∧
          imbalanced_count ⟨true, [0, 1], [(0, 1)]⟩ ≤ 2 ∧
          (∀ u ∈ [0, 1], ∀ w ∈ [0, 1], ReachSpec (symAdj [(0, 1)]) u w)) ∨
        (true = false ∧
          (odd_count ⟨true, [0, 1], [(0, 1)]⟩ = 0 ∨
            odd_count ⟨true, [0, 1], [(0, 1)]⟩ = 2) ∧
          (∀ u ∈ [0, 1], ∀ w ∈ [0, 1], ReachSpec (symAdj [(0, 1)]) u w))) :=
  has_eulerian_path_iff_spec ⟨true, [0, 1], [(0, 1)]⟩ ⟨by decide, by decide⟩

/-- C7 counterexample: for the directed graph with edges 0→1 and 0→2, two
vertices have in−out = 1 but none has out−in = 1, so the two semibalanced
counts differ; the claim that they are always equal is false. -/
theorem semibalanced_counts_counterexample :
    semibalanced_ins ⟨true, [0, 1, 2], [(0, 1), (0, 2)]⟩ = 2 ∧
      semibalanced_outs ⟨true, [0, 1, 2], [(0, 1), (0, 2)]⟩ = 0 ∧
      ¬(semibalanced_ins ⟨true, [0, 1, 2], [(0, 1), (0, 2)]⟩ =
        semibalanced_outs ⟨true, [0, 1, 2], [(0, 1), (0, 2)]⟩) := by
  decide

theorem sum_indicator_eq_zero {l : List Nat} {a : Nat} (h : a ∉ l) :
    (l.map (fun v => if a = v then (1 : Int) else 0)).sum = 0 := by
  induction l with
  | nil => rfl
  | cons b t ih =>
      rw [List.mem_cons, not_or] at h
      rw [List.map_cons, List.sum_cons, if_neg h.1, ih h.2]
      rfl

theorem sum_indicator_eq_one {l : List Nat} {a : Nat} (hv : l.Nodup) (h : a ∈ l) :
    (l.map (fun v => if a = v then (1 : Int) else 0)).sum = 1 := by
  induction l with
  | nil => cases h
  | cons b t ih =>
      rw [List.nodup_cons] at hv
      rcases List.mem_cons.1 h with rfl | hmem
      · rw [List.map_cons, List.sum_cons, if_pos rfl, sum_indicator_eq_zero hv.1]
        rfl
      · have hab : a ≠ b := fun heq => hv.1 (heq ▸ hmem)
        rw [List.map_cons, List.sum_cons, if_neg hab, ih hv.2 hmem]
        rfl

theorem sum_countP_key (f : Nat × Nat → Nat) (verts : List Nat)
    (edges : List (Nat × Nat)) (hv : verts.Nodup)
    (hcl : ∀ e ∈ edges, f e ∈ verts) :
    (verts.map (fun v => (edges.countP (fun e => f e == v) : Int))).sum =
      edges.length := by
  induction edges with
  | nil => simp
  | cons e es ih =>
      have hstep : verts.map
            (fun v => ((e :: es).countP (fun x => f x == v) : Int)) =
          verts.map (fun v => (es.countP (fun x => f x == v) : Int) +
            (if f e = v then (1 : Int) else 0)) := by
        refine List.map_congr_left fun v hv' => ?_
        rw [List.countP_cons]
        rcases eq_or_ne (f e) v with heq | hne
        · rw [if_pos (show ((f e == v) = true) from beq_iff_eq.2 heq), if_pos heq]
          push_cast
          ring
        · rw [if_neg (show ¬((f e == v) = true) from fun hb =>
            hne (beq_iff_eq.1 hb)), if_neg hne]
          push_cast
          ring
      rw [hstep, List.sum_map_add,
        ih (fun x hx => hcl x (List.mem_cons_of_mem _ hx)),
        sum_indicator_eq_one hv (hcl e (List.mem_cons_self _ _))]
      rw [List.length_cons]
      push_cast
      ring

/-- C7 (amended): for every well-formed directed graph the sum over all
vertices of (in-degree − out-degree) is 0.  (The further claim that the two
semibalanced counts always coincide is false; see the counterexample.) -/
theorem degree_balance_sum (G : Graph) (hv : G.vertices.Nodup)
    (hcl : ∀ e ∈ G.edges, e.1 ∈ G.vertices ∧ e.2 ∈ G.vertices) :
    (G.vertices.map (fun v =>
      (in_degree G v : Int) - (out_degree G v : Int))).sum = 0 := by
  have hin : (G.vertices.map (fun v => (in_degree G v : Int))).sum =
      G.edges.length :=
    sum_countP_key (fun e => e.2) G.vertices G.edges hv (fun e he => (hcl e he).2)
  have hout : (G.vertices.map (fun v => (out_degree G v : Int))).sum =
      G.edges.length :=
    sum_countP_key (fun e => e.1) G.vertices G.edges hv (fun e he => (hcl e he).1)
  have hsplit : G.vertices.map (fun v =>
        (in_degree G v : Int) - (out_degree G v : Int)) =
      G.vertices.map (fun v =>
        (in_degree G v : Int) + (-(out_degree G v : Int))) := by
    refine List.map_congr_left fun v hv' => ?_
    ring
  have hneg : ∀ l : List Nat, (l.map (fun v => -(out_degree G v : Int))).sum =
      -((l.map (fun v => (out_degree G v : Int))).sum) := by
    intro l
    induction l with
    | nil => simp
    | cons a t ih =>
        rw [List.map_cons, List.sum_cons, ih, List.map_cons, List.sum_cons]
        ring
  rw [hsplit, List.sum_map_add, hneg, hin, hout]
  ring

/-- C7 (amended) witness: the balance sum evaluated on the directed 2-cycle. -/
theorem degree_balance_sum_witness :
    (([0, 1] : List Nat).map (fun v =>
      (in_degree ⟨true, [0, 1], [(0, 1), (1, 0)]⟩ v : Int) -
        (out_degree ⟨true, [0, 1], [(0, 1), (1, 0)]⟩ v : Int))).sum = 0 :=
  degree_balance_sum ⟨true, [0, 1], [(0, 1), (1, 0)]⟩ (by decide) (by decide)

theorem list_any_congr {α : Type} {l : List α} {p q : α → Bool}
    (h : ∀ x, p x = q x) : l.any p = l.any q := by
  induction l with
  | nil => rfl
  | cons a t ih => rw [List.any_cons, List.any_cons, h a, ih]

theorem list_all_congr {α : Type} {l : List α} {p q : α → Bool}
    (h : ∀ x, p x = q x) : l.all p = l.all q := by
  induction l with
  | nil => rfl
  | cons a t ih => rw [List.all_cons, List.all_cons, h a, ih]

theorem list_countP_congr {α : Type} {l : List α} {p q : α → Bool}
    (h : ∀ x, p x = q x) : l.countP p = l.countP q := by
  induction l with
  | nil => rfl
  | cons a t ih => rw [List.countP_cons, List.countP_cons, h a, ih]

theorem bool_eq_of_iff {a b : Bool} (h : a = true ↔ b = true) : a = b := by
  cases a with
  | true => exact (h.1 rfl).symm
  | false =>
      cases b with
      | false => rfl
      | true => exact Bool.noConfusion (h.2 rfl)

theorem beq_comm_nat (a b : Nat) : (a == b) = (b == a) := by
  apply bool_eq_of_iff
  rw [beq_iff_eq, beq_iff_eq]
  exact eq_comm

theorem in_degree_reverse (G : Graph) (v : Nat) :
    in_degree (reverse G) v = out_degree G v := by
  simp only [in_degree, out_degree, reverse, List.countP_map]
  rfl

theorem out_degree_reverse (G : Graph) (v : Nat) :
    out_degree (reverse G) v = in_degree G v := by
  simp only [in_degree, out_degree, reverse, List.countP_map]
  rfl

theorem dirAdj_reverse (G : Graph) (a b : Nat) :
    dirAdj (reverse G).edges a b = dirAdj G.edges b a := by
  simp only [dirAdj, reverse, List.any_map]
  refine list_any_congr fun e => ?_
  show (e.2 == a && e.1 == b) = (e.1 == b && e.2 == a)
  exact Bool.and_comm _ _

theorem symAdj_reverse (G : Graph) (a b : Nat) :
    symAdj (reverse G).edges a b = symAdj G.edges a b := by
  simp only [symAdj, reverse, List.any_map]
  refine list_any_congr fun e => ?_
  show ((e.2 == a && e.1 == b) || (e.1 == a && e.2 == b)) =
    ((e.1 == a && e.2 == b) || (e.2 == a && e.1 == b))
  exact Bool.or_comm _ _

theorem strongly_connected_reverse (G : Graph) (hv : G.vertices.Nodup) :
    is_strongly_connected (reverse G) = is_strongly_connected G := by
  unfold is_strongly_connected
  rw [show (reverse G).vertices = G.vertices from rfl]
  apply bool_eq_of_iff
  constructor
  · intro h
    rw [allPairs, List.all_eq_true] at h ⊢
    intro u hu
    rw [List.all_eq_true]
    intro w hw
    have h1 := h w hw
    rw [List.all_eq_true] at h1
    have h2 := h1 u hu
    rw [reachb_iff_reaches hv] at h2 ⊢
    exact reaches_flip (fun a b => dirAdj_reverse G a b) hw h2
  · intro h
    rw [allPairs, List.all_eq_true] at h ⊢
    intro u hu
    rw [List.all_eq_true]
    intro w hw
    have h1 := h w hw
    rw [List.all_eq_true] at h1
    have h2 := h1 u hu
    rw [reachb_iff_reaches hv] at h2 ⊢
    exact reaches_flip (fun a b => (dirAdj_reverse G b a).symm) hw h2

theorem weakly_connected_reverse (G : Graph) :
    is_weakly_connected (reverse G) = is_weakly_connected G := by
  unfold is_weakly_connected allPairs
  refine list_all_congr fun u => ?_
  refine list_all_congr fun w => ?_
  exact reachb_congr (fun a b => symAdj_reverse G a b) u w

theorem semibalanced_ins_reverse (G : Graph) :
    semibalanced_ins (reverse G) = semibalanced_outs G := by
  unfold semibalanced_ins semibalanced_outs
  refine list_countP_congr fun v => ?_
  rw [in_degree_reverse, out_degree_reverse]

theorem semibalanced_outs_reverse (G : Graph) :
    semibalanced_outs (reverse G) = semibalanced_ins G := by
  unfold semibalanced_ins semibalanced_outs
  refine list_countP_congr fun v => ?_
  rw [in_degree_reverse, out_degree_reverse]

theorem imbalanced_count_reverse (G : Graph) :
    imbalanced_count (reverse G) = imbalanced_count G := by
  unfold imbalanced_count
  refine list_countP_congr fun v => ?_
  rw [in_degree_reverse, out_degree_reverse, beq_comm_nat]

/-- C8: reversing every edge of a directed graph preserves the `is_eulerian`
verdict and the `has_eulerian_path` verdict. -/
theorem reverse_preserves_verdicts (G : Graph) (hd : G.directed = true)
    (hv : G.vertices.Nodup) :
    is_eulerian (reverse G) = is_eulerian G ∧
      has_eulerian_path (reverse G) = has_eulerian_path G := by
  constructor
  · rw [is_eulerian, is_eulerian]
    simp only [show (reverse G).directed = G.directed from rfl, hd, if_true]
    have hbal : ((reverse G).vertices.all
          (fun n => in_degree (reverse G) n == out_degree (reverse G) n)) =
        (G.vertices.all (fun n => in_degree G n == out_degree G n)) := by
      refine list_all_congr fun n => ?_
      rw [in_degree_reverse, out_degree_reverse, beq_comm_nat]
    rw [hbal, strongly_connected_reverse G hv]
  · rw [has_eulerian_path, has_eulerian_path]
    simp only [show (reverse G).directed = G.directed from rfl, hd, if_true]
    rw [semibalanced_ins_reverse, semibalanced_outs_reverse,
      imbalanced_count_reverse, weakly_connected_reverse]
    have hswap : ∀ a b c d : Bool, (b && a && c && d) = (a && b && c && d) := by
      decide
    exact hswap _ _ _ _

/-- C8 witness: the reversal symmetry instantiated at the directed graph with
single edge 0→1. -/
theorem reverse_preserves_verdicts_witness :
    is_eulerian (reverse ⟨true, [0, 1], [(0, 1)]⟩) =
        is_eulerian ⟨true, [0, 1], [(0, 1)]⟩ ∧
      has_eulerian_path (reverse ⟨true, [0, 1], [(0, 1)]⟩) =
        has_eulerian_path ⟨true, [0, 1], [(0, 1)]⟩ :=
  reverse_preserves_verdicts ⟨true, [0, 1], [(0, 1)]⟩ rfl (by decide)

/-- Spec-side notion for claim C3, following the spec's words: a directed graph
admits an Eulerian path when some arrangement of its entire edge multiset forms
a directed walk — each edge traversed exactly once, the target of each edge
being the source of the next — or when it has no edges at all but still has a
vertex carrying the trivial walk. -/
def DirEulerianPath (G : Graph) : Prop :=
  (G.edges = [] ∧ G.vertices ≠ []) ∨
    (G.edges ≠ [] ∧ ∃ p : List (Nat × Nat), List.Perm p G.edges ∧
      List.Chain' (fun a b => a.2 = b.1) p)

/-- C3 (code bug): the directed multigraph with vertices `{0,1}` and two
parallel edges 0→1 is accepted by `has_eulerian_path` — both semibalanced
counts are 0 and the imbalanced count is 2, within the checked thresholds —
yet it admits no Eulerian path: any arrangement of the two copies of 0→1 fails
to be a walk.  The function's own docstring requires every vertex besides the
two semibalanced ones to be balanced, which vertices 0 (out−in = 2) and 1
(in−out = 2) violate, so the `≤ 2` imbalance test accepts a graph it must
reject. -/
theorem has_eulerian_path_criteria_bug :
    has_eulerian_path ⟨true, [0, 1], [(0, 1), (0, 1)]⟩ = true ∧
      ¬DirEulerianPath ⟨true, [0, 1], [(0, 1), (0, 1)]⟩ := by
  constructor
  · decide
  · rintro (⟨h, -⟩ | ⟨-, p, hperm, hchain⟩)
    · exact absurd h (by decide)
    · have hrep : List.Perm p (List.replicate 2 ((0 : Nat), (1 : Nat))) := hperm
      have hp : p = List.replicate 2 ((0 : Nat), (1 : Nat)) :=
        List.perm_replicate.1 hrep
      rw [show List.replicate 2 ((0 : Nat), (1 : Nat)) =
        [(0, 1), (0, 1)] from rfl] at hp
      rw [hp, List.chain'_cons] at hchain
      exact absurd hchain.1 (by decide)

end Konigsberg
